import Mathlib

/-!
Verification of the transcript normalization engine: a shallow embedding of
the four transcript cleaners (Teams direct paste, Teams downloaded, Teams
docx export, simple/generic fallback) and the format detector, translated
from the TypeScript sources in `src/transcript/`.  Texts are modelled as
`List Char`; each JavaScript regular expression is translated into an
executable matcher whose behaviour on the relevant pattern class
(concatenations of literals, character-class runs and bounded repetitions
whose followers are disjoint from the repeated class) is deterministic and
agrees with the regex engine's leftmost-match semantics.
-/

namespace Transcript

set_option maxRecDepth 16000

/-- Texts are lists of characters. -/
abbrev Str := List Char

def nlChar : Char := Char.ofNat 10

def apoChar : Char := Char.ofNat 39

def arrowChar : Char := Char.ofNat 0x2192

/-- The JavaScript `\s` character class (WhiteSpace plus LineTerminator). -/
def isWs (c : Char) : Bool :=
  let n := c.toNat
  n = 32 || n = 9 || n = 10 || n = 11 || n = 12 || n = 13 ||
  n = 160 || n = 0x1680 || (0x2000 ≤ n && n ≤ 0x200a) ||
  n = 0x2028 || n = 0x2029 || n = 0x202f || n = 0x205f || n = 0x3000 || n = 0xfeff

/-- JavaScript LineTerminator characters (where a multiline `^` can match). -/
def isLineTerm (c : Char) : Bool :=
  let n := c.toNat
  n = 10 || n = 13 || n = 0x2028 || n = 0x2029

/-- The regex `\d` class: ASCII digits. -/
def isDigitA (c : Char) : Bool :=
  48 ≤ c.toNat && c.toNat ≤ 57

/-- The regex class `[A-Z]`. -/
def isUpperA (c : Char) : Bool :=
  65 ≤ c.toNat && c.toNat ≤ 90

/-- The regex class `[a-z]`. -/
def isLowerA (c : Char) : Bool :=
  97 ≤ c.toNat && c.toNat ≤ 122

/-- The regex class `[a-zA-Z]`. -/
def isAlphaA (c : Char) : Bool :=
  isUpperA c || isLowerA c

/-- The regex class `[AP]`. -/
def isAP (c : Char) : Bool :=
  c == 'A' || c == 'P'

/-- The regex class `[AP]` under the `i` flag. -/
def isAPi (c : Char) : Bool :=
  c == 'A' || c == 'P' || c == 'a' || c == 'p'

/-- The literal `M` under the `i` flag. -/
def isMi (c : Char) : Bool :=
  c == 'M' || c == 'm'

/-- The regex class `[^*]`. -/
def notStar (c : Char) : Bool :=
  !(c == '*')

/-- The regex class `[^<]`. -/
def notLt (c : Char) : Bool :=
  !(c == '<')

/-- The character class `[a-zA-Z\s'-]` used by the speaker-name captures. -/
def clsName (c : Char) : Bool :=
  isAlphaA c || isWs c || c == apoChar || c == '-'

/-- JavaScript `content.split('\n')`; always returns a non-empty list. -/
def splitNL : Str → List Str
  | [] => [[]]
  | c :: rest =>
    match splitNL rest with
    | [] => [[]]
    | h :: t => if c = nlChar then [] :: h :: t else (c :: h) :: t

/-- JavaScript `String.prototype.trim` (strips `\s` from both ends). -/
def trimStr (s : Str) : Str :=
  ((s.dropWhile isWs).reverse.dropWhile isWs).reverse

/-- JavaScript `lines.join('\n')`. -/
def joinNL : List Str → Str
  | [] => []
  | [l] => l
  | l :: l2 :: ls => l ++ nlChar :: joinNL (l2 :: ls)

/-- Consume an exact literal prefix; `some rest` on success. -/
def eatLit : Str → Str → Option Str
  | [], s => some s
  | _ :: _, [] => none
  | c :: cs, d :: s => if d = c then eatLit cs s else none

/-- Consume one character of a class. -/
def eatChar (p : Char → Bool) : Str → Option Str
  | [] => none
  | c :: s => if p c then some s else none

/-- Consume a non-empty maximal run of a class (greedy `X+` whose follower
is disjoint from `X`). -/
def eatRun1 (p : Char → Bool) : Str → Option Str
  | [] => none
  | c :: s => if p c then some (s.dropWhile p) else none

/-- Consume a possibly-empty maximal run of whitespace (greedy `\s*` whose
follower is never whitespace). -/
def eatWsStar (s : Str) : Str := s.dropWhile isWs

/-- Greedy `\d{1,2}` whose follower is never a digit: succeeds exactly when
the maximal digit run at this position has length 1 or 2. -/
def eatDigits12 (s : Str) : Option Str :=
  let run := s.takeWhile isDigitA
  if run.length = 1 ∨ run.length = 2 then some (s.dropWhile isDigitA) else none

/-- Unanchored test: does the anchored matcher succeed at some suffix? -/
def anyTail (m : Str → Option Str) (s : Str) : Bool :=
  s.tails.any fun t => (m t).isSome

/-- Anchored matcher for `\d{1,2}:\d{2}\s+[AP]M`. -/
def matchTsAt (s : Str) : Option Str :=
  (eatDigits12 s).bind fun s1 =>
  (eatChar (fun c => c == ':') s1).bind fun s2 =>
  (eatChar isDigitA s2).bind fun s3 =>
  (eatChar isDigitA s3).bind fun s4 =>
  (eatRun1 isWs s4).bind fun s5 =>
  (eatChar isAP s5).bind fun s6 =>
  eatChar (fun c => c == 'M') s6

/-- Anchored matcher for `\s+\d{1,2}:\d{2}\s+[AP]M`. -/
def eatTsTail (s : Str) : Option Str :=
  (eatRun1 isWs s).bind matchTsAt

/-- The canonical intermediate representation shared by every cleaner. -/
structure SpeakerEntry where
  speaker : Str
  content : Str
deriving DecidableEq, Repr

/-- The guarded entry push used at every speaker change and at end of input:
`if (currentSpeaker && currentContent.length > 0) entries.push(...)`. -/
def pushEntry (sp : Str) (cc : List Str) (es : List SpeakerEntry) : List SpeakerEntry :=
  if sp = [] ∨ cc = [] then es
  else es ++ [⟨sp, trimStr (joinNL cc)⟩]

/-- The canonical formatter shared verbatim by all four cleaners: speaker
line, content line(s), blank separator, with trailing blanks popped. -/
def formatEntries (es : List SpeakerEntry) : Str :=
  joinNL (((es.map fun e => [e.speaker, e.content, ([] : Str)]).flatten.reverse.dropWhile
    fun l => l.isEmpty).reverse)

/-- Lazy scan for `([A-Z]<cls>+?)<follower>`: after the leading capital,
consume class characters one at a time, testing the follower after each
(shortest capture first, as the regex lazy quantifier does). -/
def lazyAux (follow : Str → Option Str) : Str → Str → Option (Str × Str)
  | _, [] => none
  | acc, c :: rest =>
    if clsName c then
      match follow rest with
      | some tail => some (acc ++ [c], tail)
      | none => lazyAux follow (acc ++ [c]) rest
    else none

/-- Anchored matcher for `^([A-Z]<cls>+?)<follower>`; returns the capture
and the follower's result. -/
def capMatch (follow : Str → Option Str) (line : Str) : Option (Str × Str) :=
  match line with
  | [] => none
  | c :: rest => if isUpperA c then lazyAux follow [c] rest else none

namespace TeamsDirectPasteCleaner

def urlLit : Str := ("https://teams.microsoft.com").data

/-- Anchored matcher for `→\s*https:\/\/teams\.microsoft\.com`. -/
def matchArrowUrlAt (s : Str) : Option Str :=
  (eatChar (fun c => c == arrowChar) s).bind fun s1 =>
  eatLit urlLit (eatWsStar s1)

/-- Anchored matcher for `\d{1,2}:\d{2}:\d{2}\s+[AP]M`. -/
def matchTsSecAt (s : Str) : Option Str :=
  (eatDigits12 s).bind fun s1 =>
  (eatChar (fun c => c == ':') s1).bind fun s2 =>
  (eatChar isDigitA s2).bind fun s3 =>
  (eatChar isDigitA s3).bind fun s4 =>
  (eatChar (fun c => c == ':') s4).bind fun s5 =>
  (eatChar isDigitA s5).bind fun s6 =>
  (eatChar isDigitA s6).bind fun s7 =>
  (eatRun1 isWs s7).bind fun s8 =>
  (eatChar isAP s8).bind fun s9 =>
  eatChar (fun c => c == 'M') s9

/-- `canHandle`: Teams URL preceded by the arrow, plus a seconds timestamp. -/
def canHandle (content : Str) : Bool :=
  anyTail matchArrowUrlAt content && anyTail matchTsSecAt content

/-- Anchored matcher for
`^\d{1,2}:\d{2}:\d{2}\s+[AP]M\s*→\s*https:\/\/teams\.microsoft\.com`. -/
def matchTsUrlAt (s : Str) : Option Str :=
  (matchTsSecAt s).bind fun s1 =>
  (eatChar (fun c => c == arrowChar) (eatWsStar s1)).bind fun s2 =>
  eatLit urlLit (eatWsStar s2)

/-- `isTimestampLine`: the anchored timestamp-plus-permalink test. -/
def isTimestampLine (line : Str) : Bool :=
  (matchTsUrlAt line).isSome

/-- The parse loop of `clean`, with the `skipNextLine` flag and the raw
one-line lookahead (`lines[i + 1].trim()`). -/
def dpLoop : List Str → Bool → Str → List Str → List SpeakerEntry → List SpeakerEntry
  | [], _, sp, cc, es => pushEntry sp cc es
  | l :: rest, skip, sp, cc, es =>
    if trimStr l = [] then dpLoop rest skip sp cc es
    else if skip then dpLoop rest false sp cc es
    else if isTimestampLine (trimStr l) then dpLoop rest skip sp cc es
    else if isTimestampLine (trimStr (rest.headD [])) then
      dpLoop rest true (trimStr l) [] (pushEntry sp cc es)
    else if sp = [] then dpLoop rest skip sp cc es
    else dpLoop rest skip sp (cc ++ [trimStr l]) es

def entries (content : Str) : List SpeakerEntry :=
  dpLoop (splitNL content) false [] [] []

def clean (content : Str) : Str :=
  formatEntries (entries content)

def getName : Str := ("Teams Direct Paste (Format 1)").data

end TeamsDirectPasteCleaner

namespace TeamsDownloadedCleaner

def astLit : Str := ['*', '*']

/-- Anchored matcher for `\*\*([^*]+)\*\*\s+\d{1,2}:\d{2}\s+[AP]M`,
returning the capture. -/
def matchBoldCapAt (s : Str) : Option Str :=
  (eatLit astLit s).bind fun s1 =>
    if s1.takeWhile notStar = [] then none
    else
      (eatLit astLit (s1.dropWhile notStar)).bind fun s3 =>
      (eatTsTail s3).map fun _ => s1.takeWhile notStar

def bOpenLit : Str := ['<', 'b', '>']

def bCloseLit : Str := ['<', '/', 'b', '>']

/-- Anchored matcher for `<b>([^<]+)<\/b>\s+\d{1,2}:\d{2}\s+[AP]M`,
returning the capture. -/
def matchHtmlCapAt (s : Str) : Option Str :=
  (eatLit bOpenLit s).bind fun s1 =>
    if s1.takeWhile notLt = [] then none
    else
      (eatLit bCloseLit (s1.dropWhile notLt)).bind fun s3 =>
      (eatTsTail s3).map fun _ => s1.takeWhile notLt

/-- `canHandle`: tests only the asterisk-bold pattern. -/
def canHandle (content : Str) : Bool :=
  anyTail matchBoldCapAt content

/-- `extractSpeaker`: asterisk pattern first, then the HTML bold pattern;
returns the trimmed leftmost capture. -/
def extractSpeaker (line : Str) : Option Str :=
  match line.tails.findSome? matchBoldCapAt with
  | some name => some (trimStr name)
  | none => (line.tails.findSome? matchHtmlCapAt).map trimStr

/-- The parse loop of `clean`.  A `some []` speaker (capture trimming to the
empty string) is falsy in JavaScript and falls through to content handling. -/
def dlLoop : List Str → Str → List Str → List SpeakerEntry → List SpeakerEntry
  | [], sp, cc, es => pushEntry sp cc es
  | l :: rest, sp, cc, es =>
    if trimStr l = [] then dlLoop rest sp cc es
    else
      match extractSpeaker (trimStr l) with
      | some name =>
        if name = [] then
          if sp = [] then dlLoop rest sp cc es
          else dlLoop rest sp (cc ++ [trimStr l]) es
        else dlLoop rest name [] (pushEntry sp cc es)
      | none =>
        if sp = [] then dlLoop rest sp cc es
        else dlLoop rest sp (cc ++ [trimStr l]) es

def entries (content : Str) : List SpeakerEntry :=
  dlLoop (splitNL content) [] [] []

def clean (content : Str) : Str :=
  formatEntries (entries content)

def getName : Str := ("Teams Downloaded (Format 2)").data

end TeamsDownloadedCleaner

namespace TeamsDocxCleaner

def domainLit : Str := ("teams.microsoft.com").data

/-- Anchored matcher for `\*\*[^*]+\*\*`. -/
def matchBoldMarkerAt (s : Str) : Option Str :=
  (eatLit TeamsDownloadedCleaner.astLit s).bind fun s1 =>
  (eatRun1 notStar s1).bind fun s2 =>
  eatLit TeamsDownloadedCleaner.astLit s2

/-- Two whitespace characters at the current position (`\s{2,}` as a test). -/
def twoWsAt : Str → Bool
  | c1 :: c2 :: _ => isWs c1 && isWs c2
  | _ => false

/-- A multiline `^` position after a line terminator, followed by two
whitespace characters. -/
def lineStartWsAt : Str → Bool
  | c :: rest => isLineTerm c && twoWsAt rest
  | [] => false

/-- `/^\s{2,}/m`: two whitespace characters at the start of the text or
immediately after a line terminator. -/
def mlWsTest (content : Str) : Bool :=
  twoWsAt content || content.tails.any lineStartWsAt

/-- `canHandle`: timestamp present, no Teams URL, no bold marker, and the
multiline leading-whitespace test. -/
def canHandle (content : Str) : Bool :=
  anyTail matchTsAt content &&
  !(anyTail (eatLit domainLit) content) &&
  !(anyTail matchBoldMarkerAt content) &&
  mlWsTest content

/-- `extractSpeakerInfo`: the anchored lazy pattern
`^([A-Z][a-zA-Z\s'-]+?)\s+(\d{1,2}:\d{2}\s+[AP]M)(.*)$`; returns the
trimmed speaker and the trimmed trailing content (omitted when empty). -/
def extractSpeakerInfo (line : Str) : Option (Str × Option Str) :=
  match capMatch eatTsTail line with
  | some (grp, trailing) =>
    let rc := trimStr trailing
    some (trimStr grp, if rc = [] then none else some rc)
  | none => none

/-- The parse loop of `clean`; same-line trailing content becomes the first
content line of the new entry. -/
def dxLoop : List Str → Str → List Str → List SpeakerEntry → List SpeakerEntry
  | [], sp, cc, es => pushEntry sp cc es
  | l :: rest, sp, cc, es =>
    if trimStr l = [] then dxLoop rest sp cc es
    else
      match extractSpeakerInfo (trimStr l) with
      | some (name, remC) =>
        dxLoop rest name (match remC with | some rc => [rc] | none => []) (pushEntry sp cc es)
      | none =>
        if sp = [] then dxLoop rest sp cc es
        else dxLoop rest sp (cc ++ [trimStr l]) es

def entries (content : Str) : List SpeakerEntry :=
  dxLoop (splitNL content) [] [] []

def clean (content : Str) : Str :=
  formatEntries (entries content)

def getName : Str := ("Teams .docx Export (Format 3)").data

end TeamsDocxCleaner

namespace SimpleTranscriptCleaner

/-- The fallback cleaner accepts everything. -/
def canHandle (_ : Str) : Bool := true

/-- Greedy `(:\d{2})?` whose follower is never a colon: consume `:dd` when
present, else leave the input unchanged. -/
def eatOptSec (s : Str) : Str :=
  match (eatChar (fun c => c == ':') s).bind
      (fun s1 => (eatChar isDigitA s1).bind (eatChar isDigitA)) with
  | some r => r
  | none => s

/-- Anchored matcher for a bracketed or parenthesised timestamp
`<open>\d{1,2}:\d{2}(:\d{2})?<close>`. -/
def matchBrTok (openC closeC : Char) (s : Str) : Option Str :=
  (eatChar (fun c => c == openC) s).bind fun s1 =>
  (eatDigits12 s1).bind fun s2 =>
  (eatChar (fun c => c == ':') s2).bind fun s3 =>
  (eatChar isDigitA s3).bind fun s4 =>
  (eatChar isDigitA s4).bind fun s5 =>
  eatChar (fun c => c == closeC) (eatOptSec s5)

/-- Anchored matcher for `\d{1,2}:\d{2}\s*[AP]M` with the `i` flag. -/
def matchMeridiem (s : Str) : Option Str :=
  (eatDigits12 s).bind fun s1 =>
  (eatChar (fun c => c == ':') s1).bind fun s2 =>
  (eatChar isDigitA s2).bind fun s3 =>
  (eatChar isDigitA s3).bind fun s4 =>
  (eatChar isAPi (eatWsStar s4)).bind fun s5 =>
  eatChar isMi s5

/-- Anchored matcher for `^\d{1,2}:\d{2}(:\d{2})?\s+`. -/
def matchLeadBare (s : Str) : Option Str :=
  (eatDigits12 s).bind fun s1 =>
  (eatChar (fun c => c == ':') s1).bind fun s2 =>
  (eatChar isDigitA s2).bind fun s3 =>
  (eatChar isDigitA s3).bind fun s4 =>
  eatRun1 isWs (eatOptSec s4)

/-- Fuelled global replace-with-empty: at each position try the matcher
(which always consumes at least one character); on success continue after
the match, otherwise keep the character and advance. -/
def gRep (m : Str → Option Str) : Nat → Str → Str
  | 0, s => s
  | _ + 1, [] => []
  | n + 1, c :: rest =>
    match m (c :: rest) with
    | some r => gRep m n r
    | none => c :: gRep m n rest

def gReplace (m : Str → Option Str) (s : Str) : Str :=
  gRep m s.length s

/-- `removeTimestamps`: the three global replaces, the anchored leading
replace, then trim. -/
def removeTimestamps (line : Str) : Str :=
  let l1 := gReplace (matchBrTok '[' ']') line
  let l2 := gReplace (matchBrTok '(' ')') l1
  let l3 := gReplace matchMeridiem l2
  let l4 := match matchLeadBare l3 with
    | some r => r
    | none => l3
  trimStr l4

/-- Follower of pattern 1: `:\s*(.*)$`. -/
def follow1 (s : Str) : Option Str :=
  (eatChar (fun c => c == ':') s).map eatWsStar

/-- Follower of pattern 2: `\s*-\s*(.*)$`. -/
def follow2 (s : Str) : Option Str :=
  (eatChar (fun c => c == '-') (eatWsStar s)).map eatWsStar

/-- Pattern 3 test: `^[A-Z][a-z]+\s+[A-Z][a-z]`. -/
def pat3Test : Str → Bool
  | [] => false
  | c :: rest =>
    isUpperA c &&
      ((eatRun1 isLowerA rest).bind fun s1 =>
       (eatRun1 isWs s1).bind fun s2 =>
       (eatChar isUpperA s2).bind (eatChar isLowerA)).isSome

/-- JavaScript `x || undefined` on a trimmed string. -/
def optStr (s : Str) : Option Str :=
  if s = [] then none else some s

/-- Pattern 3 result: the whole (already trimmed) line as a speaker with no
inline content. -/
def pat3Result (cleaned : Str) : Option (Str × Option Str) :=
  if pat3Test cleaned then some (trimStr cleaned, none) else none

/-- `extractSpeakerAndContent`: strip timestamps, then try the three
speaker patterns in order; pattern 2 requires a truthy raw `match[2]`. -/
def extractSpeakerAndContent (line : Str) : Option (Str × Option Str) :=
  let cleaned := removeTimestamps line
  match capMatch follow1 cleaned with
  | some (sp, m2) => some (trimStr sp, optStr (trimStr m2))
  | none =>
    match capMatch follow2 cleaned with
    | some (sp, m2) =>
      if m2 = [] then pat3Result cleaned
      else some (trimStr sp, optStr (trimStr m2))
    | none => pat3Result cleaned

/-- The parse loop of `clean`. -/
def spLoop : List Str → Str → List Str → List SpeakerEntry → List SpeakerEntry
  | [], sp, cc, es => pushEntry sp cc es
  | l :: rest, sp, cc, es =>
    if trimStr l = [] then spLoop rest sp cc es
    else
      match extractSpeakerAndContent (trimStr l) with
      | some (name, c) =>
        spLoop rest name (match c with | some x => [x] | none => []) (pushEntry sp cc es)
      | none =>
        if sp = [] then spLoop rest sp cc es
        else spLoop rest sp (cc ++ [trimStr l]) es

def entries (content : Str) : List SpeakerEntry :=
  spLoop (splitNL content) [] [] []

def clean (content : Str) : Str :=
  formatEntries (entries content)

def getName : Str := ("Simple/Generic (Format 4)").data

end SimpleTranscriptCleaner

/-- The four cleaner variants held by the detector. -/
inductive Variant
  | directPaste
  | downloaded
  | docx
  | simple
deriving DecidableEq, Repr

def canHandleV : Variant → Str → Bool
  | .directPaste, s => TeamsDirectPasteCleaner.canHandle s
  | .downloaded, s => TeamsDownloadedCleaner.canHandle s
  | .docx, s => TeamsDocxCleaner.canHandle s
  | .simple, s => SimpleTranscriptCleaner.canHandle s

def entriesV : Variant → Str → List SpeakerEntry
  | .directPaste, s => TeamsDirectPasteCleaner.entries s
  | .downloaded, s => TeamsDownloadedCleaner.entries s
  | .docx, s => TeamsDocxCleaner.entries s
  | .simple, s => SimpleTranscriptCleaner.entries s

def cleanV : Variant → Str → Str
  | .directPaste, s => TeamsDirectPasteCleaner.clean s
  | .downloaded, s => TeamsDownloadedCleaner.clean s
  | .docx, s => TeamsDocxCleaner.clean s
  | .simple, s => SimpleTranscriptCleaner.clean s

def getNameV : Variant → Str
  | .directPaste => TeamsDirectPasteCleaner.getName
  | .downloaded => TeamsDownloadedCleaner.getName
  | .docx => TeamsDocxCleaner.getName
  | .simple => SimpleTranscriptCleaner.getName

/-- The fixed priority order of the detector's constructor. -/
def detectOrder : List Variant :=
  [.directPaste, .downloaded, .docx, .simple]

/-- `detect`: first variant whose `canHandle` accepts; the post-loop
fallback returns the last (simple) cleaner. -/
def detect (content : Str) : Variant :=
  (detectOrder.find? fun v => canHandleV v content).getD Variant.simple

/-- `detectAndClean`: the detected cleaner's name and its cleaned output. -/
def detectAndClean (content : Str) : Str × Str :=
  (getNameV (detect content), cleanV (detect content) content)

/-- The hypothetical detector of claim C2 with the Docx and Direct-paste
priorities swapped. -/
def swappedOrder : List Variant :=
  [.docx, .downloaded, .directPaste, .simple]

def detectSwapped (content : Str) : Variant :=
  (swappedOrder.find? fun v => canHandleV v content).getD Variant.simple

/-- Invariant of every line accumulated as pending content: non-empty with
a non-whitespace first character (each is the image of `trimStr`). -/
def goodLine (l : Str) : Prop :=
  l ≠ [] ∧ ∀ c, l.head? = some c → isWs c = false

/-- Invariant of every emitted entry: non-empty speaker, non-empty content,
and the content does not end in whitespace. -/
def goodEntry (e : SpeakerEntry) : Prop :=
  e.speaker ≠ [] ∧ e.content ≠ [] ∧ ∀ c, e.content.getLast? = some c → isWs c = false

/-- Claim C10's input class: in the given line list, every timestamp line
(after trimming) is immediately preceded by a blank line. -/
def blankPrecedesTimestamps : List Str → Bool
  | [] => true
  | [_] => true
  | a :: b :: t =>
    (!(TeamsDirectPasteCleaner.isTimestampLine (trimStr b)) || trimStr a == []) &&
      blankPrecedesTimestamps (b :: t)

/-! ## Declarative readings of the detection regexes (for claims C3 and C7) -/

/-- All characters are ASCII digits. -/
abbrev DigitStr (ds : Str) : Prop := ∀ c ∈ ds, isDigitA c = true

/-- All characters are JavaScript whitespace. -/
abbrev WsStr (ws : Str) : Prop := ∀ c ∈ ws, isWs c = true

/-- No character is an asterisk. -/
abbrev NoStarStr (s : Str) : Prop := ∀ c ∈ s, notStar c = true

/-- No character is a less-than sign. -/
abbrev NoLtStr (s : Str) : Prop := ∀ c ∈ s, notLt c = true

/-- `T` contains a substring of shape `\d{1,2}:\d{2}\s+[AP]M`. -/
def SpecTs (T : Str) : Prop :=
  ∃ pre ds d1 d2 ws ap post,
    T = pre ++ ds ++ ':' :: d1 :: d2 :: (ws ++ ap :: 'M' :: post) ∧
    (ds.length = 1 ∨ ds.length = 2) ∧ DigitStr ds ∧
    isDigitA d1 = true ∧ isDigitA d2 = true ∧
    ws ≠ [] ∧ WsStr ws ∧ (ap = 'A' ∨ ap = 'P')

/-- `T` contains the Teams domain substring. -/
def SpecUrl (T : Str) : Prop :=
  ∃ pre post, T = pre ++ TeamsDocxCleaner.domainLit ++ post

/-- `T` contains a substring of shape `\*\*[^*]+\*\*`. -/
def SpecBoldMarker (T : Str) : Prop :=
  ∃ pre name post,
    T = pre ++ '*' :: '*' :: (name ++ '*' :: '*' :: post) ∧
    name ≠ [] ∧ NoStarStr name

/-- `T` matches `/^\s{2,}/m`: two consecutive whitespace characters at the
start of the text or immediately after a line terminator (the whitespace
characters may themselves be newlines). -/
def SpecMlWs (T : Str) : Prop :=
  (∃ c1 c2 r, T = c1 :: c2 :: r ∧ isWs c1 = true ∧ isWs c2 = true) ∨
  (∃ pre lt c1 c2 post, T = pre ++ lt :: c1 :: c2 :: post ∧
    isLineTerm lt = true ∧ isWs c1 = true ∧ isWs c2 = true)

/-- `T` contains a substring of shape `\*\*[^*]+\*\*\s+\d{1,2}:\d{2}\s+[AP]M`
(asterisk-bold speaker plus timestamp). -/
def SpecBoldTs (T : Str) : Prop :=
  ∃ pre name ws1 ds d1 d2 ws2 ap post,
    T = pre ++ '*' :: '*' :: (name ++ '*' :: '*' ::
      (ws1 ++ ds ++ ':' :: d1 :: d2 :: (ws2 ++ ap :: 'M' :: post))) ∧
    name ≠ [] ∧ NoStarStr name ∧ ws1 ≠ [] ∧ WsStr ws1 ∧
    (ds.length = 1 ∨ ds.length = 2) ∧ DigitStr ds ∧
    isDigitA d1 = true ∧ isDigitA d2 = true ∧
    ws2 ≠ [] ∧ WsStr ws2 ∧ (ap = 'A' ∨ ap = 'P')

/-- `T` contains a substring of shape `<b>[^<]+<\/b>\s+\d{1,2}:\d{2}\s+[AP]M`
(HTML-bold speaker plus timestamp). -/
def SpecBoldTsHtml (T : Str) : Prop :=
  ∃ pre name ws1 ds d1 d2 ws2 ap post,
    T = pre ++ '<' :: 'b' :: '>' :: (name ++ '<' :: '/' :: 'b' :: '>' ::
      (ws1 ++ ds ++ ':' :: d1 :: d2 :: (ws2 ++ ap :: 'M' :: post))) ∧
    name ≠ [] ∧ NoLtStr name ∧ ws1 ≠ [] ∧ WsStr ws1 ∧
    (ds.length = 1 ∨ ds.length = 2) ∧ DigitStr ds ∧
    isDigitA d1 = true ∧ isDigitA d2 = true ∧
    ws2 ≠ [] ∧ WsStr ws2 ∧ (ap = 'A' ∨ ap = 'P')

/-! ## Concrete inputs used by counterexamples and witnesses -/

/-- The direct-paste transcript of the spec's concrete scenario 1. -/
def exDirectPaste : Str :=
  ("John Smith\n10:30:45 AM → https://teams.microsoft.com/l/message/x\nHello everyone\n\nJane Doe\n10:31:20 AM → https://teams.microsoft.com/l/message/y\nHi John!").data

def exDirectPasteOut : Str := ("John Smith\nHello everyone\n\nJane Doe\nHi John!").data

/-- Contains both the Downloaded signature and the Direct-paste signature. -/
def exSwapInput : Str :=
  ("**X** 10:30 AM\n10:30:45 AM → https://teams.microsoft.com").data

/-- A minimal Downloaded-format transcript. -/
def exDownloadedOne : Str := ("**John Smith** 10:30 AM\nHello").data

/-- A text whose only speaker marker uses HTML bold tags. -/
def exHtmlOnly : Str := ("<b>Name</b> 10:30 AM").data

/-- A timestamp plus two consecutive blank lines: the multiline `^\s{2,}`
regex matches the newline run itself although no line starts with
whitespace. -/
def exDocxEdge : Str := ("1:23 AM\n\n\nx").data

/-- Free text with no recognizable speaker markers. -/
def exNoStructure : Str := ("just some free text\nwith no structure at all").data

/-- A direct-paste shape in which a blank line separates the name line from
its timestamp line. -/
def exBlankSeparated : Str :=
  ("John Smith\n\n10:30:45 AM → https://teams.microsoft.com/x\nHello").data

/-! ## C8: concrete end-to-end scenario -/

/-- C8: on the spec's concrete scenario-1 input, `detectAndClean` selects
the Direct-paste cleaner and returns the expected canonical text. -/
theorem C8_detectAndClean_scenario :
    detect exDirectPaste = Variant.directPaste ∧
    detectAndClean exDirectPaste = (TeamsDirectPasteCleaner.getName, exDirectPasteOut) := by
  decide

/-! ## C2: order sensitivity of the detector -/

/-- C2: there is an input that the standard-priority detector classifies
differently from the detector with the Docx and Direct-paste priorities
swapped. -/
theorem C2_order_sensitivity :
    ∃ T : Str, detect T = Variant.directPaste ∧ detectSwapped T = Variant.downloaded ∧
      detect T ≠ detectSwapped T := by
  refine ⟨exSwapInput, ?_, ?_, ?_⟩ <;> decide

/-! ## C1: idempotence of re-cleaning (corrected) -/

/-- C1 counterexample: for the Downloaded cleaner, cleaning its own
canonical output loses the bold markup that made the speaker recognizable,
so the (speaker, content) pairing changes (one entry becomes zero) and
`clean (clean T) ≠ clean T`. -/
theorem C1_counterexample :
    TeamsDownloadedCleaner.entries exDownloadedOne =
      [⟨("John Smith").data, ("Hello").data⟩] ∧
    TeamsDownloadedCleaner.entries (TeamsDownloadedCleaner.clean exDownloadedOne) = [] ∧
    TeamsDownloadedCleaner.clean (TeamsDownloadedCleaner.clean exDownloadedOne) ≠
      TeamsDownloadedCleaner.clean exDownloadedOne := by
  refine ⟨by decide, by decide, by decide⟩

/-- C1 amended: re-cleaning is stable exactly in the degenerate case the
counterexample leaves: whenever a cleaner's output is empty (no entries
were recognized), running the same cleaner again returns the same (empty)
output. -/
theorem C1_amended_empty_output_stable (v : Variant) (T : Str)
    (h : cleanV v T = []) : cleanV v (cleanV v T) = cleanV v T := by
  rw [h]
  cases v <;> decide

theorem C1_amended_empty_output_stable_witness :
    cleanV Variant.simple exNoStructure = [] ∧
    cleanV Variant.simple (cleanV Variant.simple exNoStructure) =
      cleanV Variant.simple exNoStructure :=
  ⟨by decide, C1_amended_empty_output_stable Variant.simple exNoStructure (by decide)⟩

/-! ## C4: totality and first-match semantics of detection -/

/-- C4: the fallback cleaner accepts every input, so the detector's scan
always finds a cleaner and `detect` returns the first accepting variant in
the fixed priority order; the post-loop fallback branch is unreachable. -/
theorem C4_total_detection (T : Str) :
    canHandleV Variant.simple T = true ∧
    detectOrder.find? (fun v => canHandleV v T) = some (detect T) := by
  refine ⟨rfl, ?_⟩
  cases h1 : TeamsDirectPasteCleaner.canHandle T <;>
    cases h2 : TeamsDownloadedCleaner.canHandle T <;>
      cases h3 : TeamsDocxCleaner.canHandle T <;>
        simp [detect, detectOrder, List.find?, canHandleV, h1, h2, h3,
          SimpleTranscriptCleaner.canHandle]

/-! ## C5: graceful degradation to the empty string -/

/-- C5: every cleaner is a total function (no exceptions by construction),
and whenever its parse produces zero entries, `clean` returns the empty
string. -/
theorem C5_empty_parse_empty_output (v : Variant) (T : Str)
    (h : entriesV v T = []) : cleanV v T = [] := by
  cases v <;>
    simp only [entriesV, cleanV] at h ⊢ <;>
      first
        | exact (by unfold TeamsDirectPasteCleaner.clean; rw [h]; rfl)
        | exact (by unfold TeamsDownloadedCleaner.clean; rw [h]; rfl)
        | exact (by unfold TeamsDocxCleaner.clean; rw [h]; rfl)
        | exact (by unfold SimpleTranscriptCleaner.clean; rw [h]; rfl)

theorem C5_empty_parse_empty_output_witness :
    entriesV Variant.directPaste exNoStructure = [] ∧
    cleanV Variant.directPaste exNoStructure = [] :=
  ⟨by decide, C5_empty_parse_empty_output Variant.directPaste exNoStructure (by decide)⟩

/-! ## Helper lemmas about trimming, joining and splitting -/

lemma head_dropWhile_false {p : Char → Bool} {s : Str} {c : Char}
    (h : (s.dropWhile p).head? = some c) : p c = false := by
  have hd := List.head?_dropWhile_not p s
  rw [h] at hd
  exact hd

lemma mem_dropWhile_of_not {p : Char → Bool} {s : Str} {c : Char}
    (hc : c ∈ s) (hpc : p c = false) : c ∈ s.dropWhile p := by
  have hsplit : s.takeWhile p ++ s.dropWhile p = s := List.takeWhile_append_dropWhile p s
  have hmem : c ∈ s.takeWhile p ++ s.dropWhile p := by rw [hsplit]; exact hc
  rcases List.mem_append.mp hmem with h1 | h2
  · have := List.mem_takeWhile_imp h1
    rw [this] at hpc
    exact absurd hpc (by simp)
  · exact h2

lemma trimStr_ne_nil {s : Str} {c : Char} (hc : c ∈ s) (hw : isWs c = false) :
    trimStr s ≠ [] := by
  unfold trimStr
  intro h
  have h2 : (s.dropWhile isWs).reverse.dropWhile isWs = [] := by
    have := congrArg List.reverse h
    simpa using this
  have hc1 : c ∈ s.dropWhile isWs := mem_dropWhile_of_not hc hw
  have hc2 : c ∈ (s.dropWhile isWs).reverse := by simpa using hc1
  have := List.dropWhile_eq_nil_iff.mp h2 c hc2
  rw [this] at hw
  exact absurd hw (by simp)

lemma getLast?_append_right {α : Type} {a b : List α} (hb : b ≠ []) :
    (a ++ b).getLast? = b.getLast? := by
  rw [List.getLast?_append]
  cases hlast : b.getLast? with
  | none => exact absurd (List.getLast?_eq_none_iff.mp hlast) hb
  | some x => rfl

lemma trimStr_head {s : Str} {c : Char} (h : (trimStr s).head? = some c) :
    isWs c = false := by
  unfold trimStr at h
  rw [List.head?_reverse] at h
  set y := (s.dropWhile isWs).reverse with hy
  have hsplit : y.takeWhile isWs ++ y.dropWhile isWs = y := List.takeWhile_append_dropWhile isWs y
  have hne : y.dropWhile isWs ≠ [] := by
    intro hnil
    rw [hnil] at h
    simp at h
  have h2 : y.getLast? = some c := by
    rw [← hsplit, getLast?_append_right hne]
    exact h
  rw [hy, List.getLast?_reverse] at h2
  exact head_dropWhile_false h2

lemma trimStr_getLast {s : Str} {c : Char} (h : (trimStr s).getLast? = some c) :
    isWs c = false := by
  unfold trimStr at h
  rw [List.getLast?_reverse] at h
  exact head_dropWhile_false h

lemma goodLine_trim {s : Str} (h : trimStr s ≠ []) : goodLine (trimStr s) :=
  ⟨h, fun _ hc => trimStr_head hc⟩

lemma joinNL_head_mem {l0 : Str} {t : List Str} {c : Char} (hc : c ∈ l0) :
    c ∈ joinNL (l0 :: t) := by
  cases t with
  | nil => exact hc
  | cons l2 ls =>
    show c ∈ l0 ++ nlChar :: joinNL (l2 :: ls)
    exact List.mem_append.mpr (Or.inl hc)

lemma pushEntry_good {sp : Str} {cc : List Str} {es : List SpeakerEntry}
    (hcc : ∀ l ∈ cc, goodLine l) (hes : ∀ e ∈ es, goodEntry e) :
    ∀ e ∈ pushEntry sp cc es, goodEntry e := by
  unfold pushEntry
  split
  · exact hes
  · rename_i hcond
    push_neg at hcond
    obtain ⟨hsp, hccne⟩ := hcond
    intro e he
    rcases List.mem_append.mp he with h1 | h2
    · exact hes e h1
    · have he2 : e = ⟨sp, trimStr (joinNL cc)⟩ := by simpa using h2
      subst he2
      refine ⟨hsp, ?_, fun _ hc => trimStr_getLast hc⟩
      obtain ⟨l0, t, rfl⟩ : ∃ l0 t, cc = l0 :: t := by
        cases cc with
        | nil => exact absurd rfl hccne
        | cons x y => exact ⟨x, y, rfl⟩
      obtain ⟨hl0ne, hl0h⟩ := hcc l0 (by simp)
      obtain ⟨c0, tl0, rfl⟩ : ∃ c0 tl0, l0 = c0 :: tl0 := by
        cases l0 with
        | nil => exact absurd rfl hl0ne
        | cons x y => exact ⟨x, y, rfl⟩
      exact trimStr_ne_nil (joinNL_head_mem (List.mem_cons_self c0 tl0)) (hl0h c0 rfl)

/-! ## The entry invariant holds through every parse loop -/

lemma ccPush_good {cc : List Str} {l : Str} (hcc : ∀ x ∈ cc, goodLine x)
    (hl : goodLine l) : ∀ x ∈ cc ++ [l], goodLine x := by
  intro x hx
  rcases List.mem_append.mp hx with h1 | h2
  · exact hcc x h1
  · have : x = l := by simpa using h2
    subst this
    exact hl

lemma dlLoop_good : ∀ (ls : List Str) (sp : Str) (cc : List Str) (es : List SpeakerEntry),
    (∀ l ∈ cc, goodLine l) → (∀ e ∈ es, goodEntry e) →
    ∀ e ∈ TeamsDownloadedCleaner.dlLoop ls sp cc es, goodEntry e := by
  intro ls
  induction ls with
  | nil => intro sp cc es hcc hes; exact pushEntry_good hcc hes
  | cons l rest ih =>
    intro sp cc es hcc hes
    simp only [TeamsDownloadedCleaner.dlLoop]
    split
    · exact ih sp cc es hcc hes
    · rename_i ht
      split
      · rename_i name hname
        split
        · split
          · exact ih sp cc es hcc hes
          · exact ih sp _ es (ccPush_good hcc (goodLine_trim ht)) hes
        · exact ih name [] (pushEntry sp cc es) (by simp) (pushEntry_good hcc hes)
      · split
        · exact ih sp cc es hcc hes
        · exact ih sp _ es (ccPush_good hcc (goodLine_trim ht)) hes

lemma dpLoop_good : ∀ (ls : List Str) (skip : Bool) (sp : Str) (cc : List Str)
    (es : List SpeakerEntry),
    (∀ l ∈ cc, goodLine l) → (∀ e ∈ es, goodEntry e) →
    ∀ e ∈ TeamsDirectPasteCleaner.dpLoop ls skip sp cc es, goodEntry e := by
  intro ls
  induction ls with
  | nil => intro skip sp cc es hcc hes; exact pushEntry_good hcc hes
  | cons l rest ih =>
    intro skip sp cc es hcc hes
    simp only [TeamsDirectPasteCleaner.dpLoop]
    split
    · exact ih skip sp cc es hcc hes
    · rename_i ht
      split
      · exact ih false sp cc es hcc hes
      · split
        · exact ih skip sp cc es hcc hes
        · split
          · exact ih true (trimStr l) [] (pushEntry sp cc es) (by simp)
              (pushEntry_good hcc hes)
          · split
            · exact ih skip sp cc es hcc hes
            · exact ih skip sp _ es (ccPush_good hcc (goodLine_trim ht)) hes

lemma optStr_eq_some {s x : Str} (h : SimpleTranscriptCleaner.optStr s = some x) :
    s = x ∧ x ≠ [] := by
  unfold SimpleTranscriptCleaner.optStr at h
  split at h
  · simp at h
  · rename_i hne
    obtain rfl := Option.some.inj h
    exact ⟨rfl, hne⟩

lemma extractSpeakerInfo_remC {line n : Str} {rc : Str}
    (h : TeamsDocxCleaner.extractSpeakerInfo line = some (n, some rc)) : goodLine rc := by
  simp only [TeamsDocxCleaner.extractSpeakerInfo] at h
  split at h
  · simp only [Option.some.injEq, Prod.mk.injEq] at h
    obtain ⟨hn, hrc⟩ := h
    split at hrc
    · simp at hrc
    · rename_i hne
      have heq := Option.some.inj hrc
      subst heq
      exact goodLine_trim hne
  · simp at h

lemma extractSAC_content {line n : Str} {x : Str}
    (h : SimpleTranscriptCleaner.extractSpeakerAndContent line = some (n, some x)) :
    goodLine x := by
  have hp3 : ∀ s : Str, SimpleTranscriptCleaner.pat3Result s = some (n, some x) → goodLine x := by
    intro s hs
    unfold SimpleTranscriptCleaner.pat3Result at hs
    split at hs
    · simp at hs
    · simp at hs
  have hsome : ∀ sp2 m2 : Str,
      (some (trimStr sp2, SimpleTranscriptCleaner.optStr (trimStr m2)) :
        Option (Str × Option Str)) = some (n, some x) → goodLine x := by
    intro sp2 m2 hx
    simp only [Option.some.injEq, Prod.mk.injEq] at hx
    obtain ⟨hn, hx2⟩ := hx
    obtain ⟨hxeq, hxne⟩ := optStr_eq_some hx2
    rw [← hxeq]
    exact goodLine_trim (by rw [hxeq]; exact hxne)
  simp only [SimpleTranscriptCleaner.extractSpeakerAndContent] at h
  split at h
  · exact hsome _ _ h
  · split at h
    · split at h
      · exact hp3 _ h
      · exact hsome _ _ h
    · exact hp3 _ h

lemma dxLoop_good : ∀ (ls : List Str) (sp : Str) (cc : List Str) (es : List SpeakerEntry),
    (∀ l ∈ cc, goodLine l) → (∀ e ∈ es, goodEntry e) →
    ∀ e ∈ TeamsDocxCleaner.dxLoop ls sp cc es, goodEntry e := by
  intro ls
  induction ls with
  | nil => intro sp cc es hcc hes; exact pushEntry_good hcc hes
  | cons l rest ih =>
    intro sp cc es hcc hes
    simp only [TeamsDocxCleaner.dxLoop]
    split
    · exact ih sp cc es hcc hes
    · rename_i ht
      split
      · rename_i name remC hpr
        cases remC with
        | none => exact ih name [] (pushEntry sp cc es) (by simp) (pushEntry_good hcc hes)
        | some rc =>
          refine ih name [rc] (pushEntry sp cc es) ?_ (pushEntry_good hcc hes)
          intro l2 hl2
          have : l2 = rc := by simpa using hl2
          subst this
          exact extractSpeakerInfo_remC hpr
      · split
        · exact ih sp cc es hcc hes
        · exact ih sp _ es (ccPush_good hcc (goodLine_trim ht)) hes

lemma spLoop_good : ∀ (ls : List Str) (sp : Str) (cc : List Str) (es : List SpeakerEntry),
    (∀ l ∈ cc, goodLine l) → (∀ e ∈ es, goodEntry e) →
    ∀ e ∈ SimpleTranscriptCleaner.spLoop ls sp cc es, goodEntry e := by
  intro ls
  induction ls with
  | nil => intro sp cc es hcc hes; exact pushEntry_good hcc hes
  | cons l rest ih =>
    intro sp cc es hcc hes
    simp only [SimpleTranscriptCleaner.spLoop]
    split
    · exact ih sp cc es hcc hes
    · rename_i ht
      split
      · rename_i name cnt hpr
        cases cnt with
        | none => exact ih name [] (pushEntry sp cc es) (by simp) (pushEntry_good hcc hes)
        | some x =>
          refine ih name [x] (pushEntry sp cc es) ?_ (pushEntry_good hcc hes)
          intro l2 hl2
          have : l2 = x := by simpa using hl2
          subst this
          exact extractSAC_content hpr
      · split
        · exact ih sp cc es hcc hes
        · exact ih sp _ es (ccPush_good hcc (goodLine_trim ht)) hes

/-- Every entry any variant's parse emits satisfies the full invariant. -/
lemma entries_good (v : Variant) (T : Str) : ∀ e ∈ entriesV v T, goodEntry e := by
  cases v with
  | directPaste =>
    exact dpLoop_good (splitNL T) false [] [] [] (by simp) (by simp)
  | downloaded =>
    exact dlLoop_good (splitNL T) [] [] [] (by simp) (by simp)
  | docx =>
    exact dxLoop_good (splitNL T) [] [] [] (by simp) (by simp)
  | simple =>
    exact spLoop_good (splitNL T) [] [] [] (by simp) (by simp)

/-! ## C6: entries are non-empty by construction -/

/-- C6: every entry emitted by any variant's parse has a non-empty speaker
and non-empty content; speakerless or contentless entries are never
emitted. -/
theorem C6_entries_nonempty (v : Variant) (T : Str) (e : SpeakerEntry)
    (he : e ∈ entriesV v T) : e.speaker ≠ [] ∧ e.content ≠ [] :=
  ⟨(entries_good v T e he).1, (entries_good v T e he).2.1⟩

theorem C6_entries_nonempty_witness :
    (⟨("John Smith").data, ("Hello").data⟩ : SpeakerEntry) ∈
      entriesV Variant.downloaded exDownloadedOne ∧
    (("John Smith").data ≠ ([] : Str) ∧ ("Hello").data ≠ ([] : Str)) :=
  ⟨by decide,
   C6_entries_nonempty Variant.downloaded exDownloadedOne
     ⟨("John Smith").data, ("Hello").data⟩ (by decide)⟩

/-! ## C9: the output never ends with a blank line -/

lemma splitNL_ne_nil : ∀ s : Str, splitNL s ≠ [] := by
  intro s
  cases s with
  | nil => simp [splitNL]
  | cons c rest =>
    rw [splitNL]
    cases h : splitNL rest with
    | nil => simp
    | cons a b => by_cases hc : c = nlChar <;> simp [hc]

lemma getLast?_cons_of_ne_nil {α : Type} {a : α} {l : List α} (h : l ≠ []) :
    (a :: l).getLast? = l.getLast? := by
  cases l with
  | nil => exact absurd rfl h
  | cons b t => exact List.getLast?_cons_cons

lemma splitNL_getLast_ne_nil : ∀ (s : Str) (c : Char), s.getLast? = some c → c ≠ nlChar →
    ∀ l, (splitNL s).getLast? = some l → l ≠ [] := by
  intro s
  induction s with
  | nil => intro c hc; simp at hc
  | cons a s' ih =>
    intro c hc hcnl l hl
    cases s' with
    | nil =>
      simp at hc
      subst hc
      simp only [splitNL] at hl
      rw [if_neg hcnl] at hl
      simp at hl
      rw [← hl]
      simp
    | cons b s2 =>
      have hc2 : (b :: s2).getLast? = some c := by
        rw [← List.getLast?_cons_cons (a := a)]
        exact hc
      rw [splitNL] at hl
      split at hl
      · rename_i heq
        exact absurd heq (splitNL_ne_nil _)
      · rename_i h0 t0 heq
        split at hl
        · rw [List.getLast?_cons_cons] at hl
          exact ih c hc2 hcnl l (by rw [heq]; exact hl)
        · cases t0 with
          | nil =>
            simp at hl
            rw [← hl]
            simp
          | cons u v =>
            rw [List.getLast?_cons_cons] at hl
            refine ih c hc2 hcnl l ?_
            rw [heq, getLast?_cons_of_ne_nil (by simp)]
            exact hl

lemma joinNL_getLast : ∀ (parts : List Str) (l : Str), parts.getLast? = some l → l ≠ [] →
    (joinNL parts).getLast? = l.getLast? := by
  intro parts
  induction parts with
  | nil => intro l hl; simp at hl
  | cons p t ih =>
    intro l hl hlne
    cases t with
    | nil =>
      simp at hl
      rw [← hl]
      rfl
    | cons q t2 =>
      rw [getLast?_cons_of_ne_nil (by simp)] at hl
      have hjoin : joinNL (p :: q :: t2) = p ++ nlChar :: joinNL (q :: t2) := rfl
      rw [hjoin, getLast?_append_right (by simp)]
      have hne : joinNL (q :: t2) ≠ [] := by
        intro hnil
        have hx := ih l hl hlne
        rw [hnil] at hx
        cases hy : l.getLast? with
        | none => exact hlne (List.getLast?_eq_none_iff.mp hy)
        | some y => rw [hy] at hx; simp at hx
      rw [getLast?_cons_of_ne_nil hne]
      exact ih l hl hlne

lemma formatEntries_getLast_concat {es0 : List SpeakerEntry} {e : SpeakerEntry}
    (hc : e.content ≠ []) :
    (formatEntries (es0 ++ [e])).getLast? = e.content.getLast? := by
  unfold formatEntries
  rw [List.map_append, List.flatten_append]
  generalize (es0.map fun x => [x.speaker, x.content, ([] : Str)]).flatten = X
  have h2 : ([e].map fun x => [x.speaker, x.content, ([] : Str)]).flatten
      = [e.speaker, e.content, ([] : Str)] := by simp
  rw [h2]
  have h3 : (X ++ [e.speaker, e.content, ([] : Str)]).reverse
      = ([] : Str) :: e.content :: e.speaker :: X.reverse := by simp
  rw [h3]
  rw [List.dropWhile_cons]
  have hce : e.content.isEmpty = false := by
    cases hcc : e.content with
    | nil => exact absurd hcc hc
    | cons y ys => rfl
  simp only [List.isEmpty_nil, if_true]
  rw [List.dropWhile_cons, hce]
  simp only [Bool.false_eq_true, if_false]
  rw [show (e.content :: e.speaker :: X.reverse).reverse = X ++ [e.speaker, e.content] by simp]
  refine joinNL_getLast _ e.content ?_ hc
  rw [show X ++ [e.speaker, e.content] = (X ++ [e.speaker]) ++ [e.content] by simp]
  exact List.getLast?_concat _

/-- C9: for every variant and input, the cleaned output is either empty or
its final line is non-empty: the formatter's trailing-blank stripping means
the result never ends with a blank line. -/
theorem C9_no_trailing_blank (v : Variant) (T : Str) (hne : cleanV v T ≠ [])
    (l : Str) (hl : (splitNL (cleanV v T)).getLast? = some l) : l ≠ [] := by
  have hclean : cleanV v T = formatEntries (entriesV v T) := by cases v <;> rfl
  rcases List.eq_nil_or_concat (entriesV v T) with hnil | ⟨es0, e, hcat⟩
  · rw [hclean, hnil] at hne
    exact absurd rfl hne
  · have hcat2 : entriesV v T = es0 ++ [e] := by rw [hcat]; simp
    have hgood : goodEntry e := entries_good v T e (by rw [hcat2]; simp)
    obtain ⟨hsp, hct, hctl⟩ := hgood
    have hlast : (cleanV v T).getLast? = e.content.getLast? := by
      rw [hclean, hcat2]
      exact formatEntries_getLast_concat hct
    obtain ⟨c, hcl⟩ : ∃ c, e.content.getLast? = some c := by
      cases hx : e.content.getLast? with
      | none => exact absurd (List.getLast?_eq_none_iff.mp hx) hct
      | some y => exact ⟨y, rfl⟩
    have hcw : isWs c = false := hctl c hcl
    have hcnl : c ≠ nlChar := by
      intro hceq
      rw [hceq] at hcw
      exact absurd hcw (by decide)
    exact splitNL_getLast_ne_nil (cleanV v T) c (by rw [hlast]; exact hcl) hcnl l hl

theorem C9_no_trailing_blank_witness :
    cleanV Variant.downloaded exDownloadedOne ≠ [] ∧
    (splitNL (cleanV Variant.downloaded exDownloadedOne)).getLast? =
      some (("Hello").data) ∧
    (("Hello").data : Str) ≠ [] :=
  ⟨by decide, by decide,
   C9_no_trailing_blank Variant.downloaded exDownloadedOne (by decide) (("Hello").data)
     (by decide)⟩

/-! ## C10: the direct-paste lookahead does not skip blank lines -/

lemma bpt_tail {l : Str} {rest : List Str}
    (h : blankPrecedesTimestamps (l :: rest) = true) :
    blankPrecedesTimestamps rest = true := by
  cases rest with
  | nil => rfl
  | cons r t =>
    simp only [blankPrecedesTimestamps, Bool.and_eq_true] at h
    exact h.2

lemma bpt_head {l r : Str} {t : List Str}
    (h : blankPrecedesTimestamps (l :: r :: t) = true)
    (hts : TeamsDirectPasteCleaner.isTimestampLine (trimStr r) = true) :
    trimStr l = [] := by
  simp only [blankPrecedesTimestamps, Bool.and_eq_true] at h
  obtain ⟨h1, _⟩ := h
  rw [hts] at h1
  simpa using h1

lemma dpLoop_no_speaker : ∀ (ls : List Str) (skip : Bool),
    blankPrecedesTimestamps ls = true →
    TeamsDirectPasteCleaner.dpLoop ls skip [] [] [] = [] := by
  intro ls
  induction ls with
  | nil => intro skip h; rfl
  | cons l rest ih =>
    intro skip h
    have hch := bpt_tail h
    simp only [TeamsDirectPasteCleaner.dpLoop]
    split
    · exact ih skip hch
    · rename_i ht
      split
      · exact ih false hch
      · split
        · exact ih skip hch
        · split
          · rename_i hts
            exfalso
            cases rest with
            | nil => exact absurd hts (by decide)
            | cons r rest2 =>
              exact ht (bpt_head h (by simpa using hts))
          · split
            · exact ih skip hch
            · rename_i hsp
              exact absurd trivial hsp

/-- C10: in the Direct-paste parse, a line is recognized as a speaker only
when the immediately following raw line (index `i+1`, no blank skipping) is
a timestamp line; hence on any input where every timestamp line is directly
preceded by a blank line, no speaker is recognized and `clean` returns the
empty string. -/
theorem C10_blank_separated_no_speakers (T : Str)
    (h : blankPrecedesTimestamps (splitNL T) = true) :
    TeamsDirectPasteCleaner.entries T = [] ∧ TeamsDirectPasteCleaner.clean T = [] := by
  have he : TeamsDirectPasteCleaner.entries T = [] := dpLoop_no_speaker (splitNL T) false h
  refine ⟨he, ?_⟩
  unfold TeamsDirectPasteCleaner.clean
  rw [he]
  rfl

theorem C10_blank_separated_no_speakers_witness :
    blankPrecedesTimestamps (splitNL exBlankSeparated) = true ∧
    TeamsDirectPasteCleaner.entries exBlankSeparated = [] ∧
    TeamsDirectPasteCleaner.clean exBlankSeparated = [] :=
  ⟨by decide, C10_blank_separated_no_speakers exBlankSeparated (by decide)⟩

/-! ## Correctness of the anchored matchers against their declarative
readings (claims C3 and C7) -/

lemma span_take {p : Char → Bool} : ∀ {run rest : Str},
    (∀ c ∈ run, p c = true) → (∀ c, rest.head? = some c → p c = false) →
    (run ++ rest).takeWhile p = run := by
  intro run
  induction run with
  | nil =>
    intro rest _ hhead
    cases rest with
    | nil => rfl
    | cons c t =>
      show (c :: t).takeWhile p = []
      rw [List.takeWhile_cons, hhead c rfl]
      simp
  | cons a run2 ih =>
    intro rest hall hhead
    show ((a :: run2) ++ rest).takeWhile p = a :: run2
    rw [List.cons_append, List.takeWhile_cons, hall a (by simp)]
    simp only [if_true]
    rw [ih (fun c hc => hall c (by simp [hc])) hhead]

lemma span_drop {p : Char → Bool} : ∀ {run rest : Str},
    (∀ c ∈ run, p c = true) → (∀ c, rest.head? = some c → p c = false) →
    (run ++ rest).dropWhile p = rest := by
  intro run
  induction run with
  | nil =>
    intro rest _ hhead
    cases rest with
    | nil => rfl
    | cons c t =>
      show (c :: t).dropWhile p = c :: t
      rw [List.dropWhile_cons, hhead c rfl]
      simp
  | cons a run2 ih =>
    intro rest hall hhead
    show ((a :: run2) ++ rest).dropWhile p = rest
    rw [List.cons_append, List.dropWhile_cons, hall a (by simp)]
    simp only [if_true]
    exact ih (fun c hc => hall c (by simp [hc])) hhead

lemma eatLit_iff : ∀ {lit s r : Str}, eatLit lit s = some r ↔ s = lit ++ r := by
  intro lit
  induction lit with
  | nil =>
    intro s r
    constructor
    · intro h
      simpa using (Option.some.inj h)
    · intro h
      simp [eatLit, h]
  | cons c cs ih =>
    intro s r
    cases s with
    | nil =>
      constructor
      · intro h; exact absurd h (by simp [eatLit])
      · intro h; exact absurd h (by simp)
    | cons d t =>
      show (if d = c then eatLit cs t else none) = some r ↔ _
      by_cases hdc : d = c
      · rw [if_pos hdc, ih]
        subst hdc
        constructor
        · intro h; rw [h]; rfl
        · intro h; exact (List.cons.inj h).2
      · rw [if_neg hdc]
        constructor
        · intro h; exact absurd h (by simp)
        · intro h
          exact absurd (List.cons.inj h).1 hdc

lemma eatChar_of (p : Char → Bool) {c : Char} {r : Str} (h : p c = true) :
    eatChar p (c :: r) = some r := by
  show (if p c then some r else none) = some r
  rw [h]
  simp

lemma eatChar_inv {p : Char → Bool} {s r : Str} (h : eatChar p s = some r) :
    ∃ c, s = c :: r ∧ p c = true := by
  cases s with
  | nil => exact absurd h (by simp [eatChar])
  | cons c t =>
    refine ⟨c, ?_⟩
    by_cases hp : p c = true
    · rw [show eatChar p (c :: t) = (if p c then some t else none) from rfl, hp] at h
      simp at h
      rw [h]
      exact ⟨rfl, hp⟩
    · rw [show eatChar p (c :: t) = (if p c then some t else none) from rfl] at h
      rw [Bool.not_eq_true] at hp
      rw [hp] at h
      simp at h

lemma eatRun1_of {p : Char → Bool} {run rest : Str} (hne : run ≠ [])
    (hall : ∀ c ∈ run, p c = true) (hhead : ∀ c, rest.head? = some c → p c = false) :
    eatRun1 p (run ++ rest) = some rest := by
  cases run with
  | nil => exact absurd rfl hne
  | cons a run2 =>
    show (if p a then some ((run2 ++ rest).dropWhile p) else none) = some rest
    rw [hall a (by simp)]
    simp only [if_true]
    rw [span_drop (fun c hc => hall c (by simp [hc])) hhead]

lemma eatRun1_inv {p : Char → Bool} {s r : Str} (h : eatRun1 p s = some r) :
    ∃ run, s = run ++ r ∧ run ≠ [] ∧ (∀ c ∈ run, p c = true) ∧
      ∀ c, r.head? = some c → p c = false := by
  cases s with
  | nil => exact absurd h (by simp [eatRun1])
  | cons a t =>
    by_cases hp : p a = true
    · rw [show eatRun1 p (a :: t) = (if p a then some (t.dropWhile p) else none) from rfl,
        hp] at h
      simp at h
      refine ⟨a :: t.takeWhile p, ?_, by simp, ?_, ?_⟩
      · rw [← h]
        rw [List.cons_append, List.takeWhile_append_dropWhile]
      · intro c hc
        rcases List.mem_cons.mp hc with h1 | h2
        · rw [h1]; exact hp
        · exact List.mem_takeWhile_imp h2
      · intro c hc
        rw [← h] at hc
        exact head_dropWhile_false hc
    · rw [Bool.not_eq_true] at hp
      rw [show eatRun1 p (a :: t) = (if p a then some (t.dropWhile p) else none) from rfl,
        hp] at h
      simp at h

lemma eatDigits12_of {ds rest : Str} (hl : ds.length = 1 ∨ ds.length = 2)
    (hall : DigitStr ds) (hhead : ∀ c, rest.head? = some c → isDigitA c = false) :
    eatDigits12 (ds ++ rest) = some rest := by
  unfold eatDigits12
  rw [span_take hall hhead, span_drop hall hhead, if_pos hl]

lemma eatDigits12_inv {s r : Str} (h : eatDigits12 s = some r) :
    ∃ ds, s = ds ++ r ∧ (ds.length = 1 ∨ ds.length = 2) ∧ DigitStr ds ∧
      ∀ c, r.head? = some c → isDigitA c = false := by
  simp only [eatDigits12] at h
  split at h
  · rename_i hl
    simp at h
    refine ⟨s.takeWhile isDigitA, ?_, hl, ?_, ?_⟩
    · rw [← h, List.takeWhile_append_dropWhile]
    · intro c hc
      exact List.mem_takeWhile_imp hc
    · intro c hc
      rw [← h] at hc
      exact head_dropWhile_false hc
  · simp at h

lemma digit_not_ws {c : Char} (h : isDigitA c = true) : isWs c = false := by
  simp only [isDigitA, Bool.and_eq_true, decide_eq_true_eq] at h
  simp only [isWs, Bool.or_eq_false_iff, decide_eq_false_iff_not, Bool.and_eq_false_iff,
    decide_eq_false_iff_not]
  omega

lemma head_cons_false {q : Char → Bool} {c : Char} {t : Str} (h : q c = false) :
    ∀ x, (c :: t).head? = some x → q x = false := by
  intro x hx
  rw [List.head?_cons] at hx
  obtain rfl := Option.some.inj hx
  exact h

lemma head_append_cons_false {q : Char → Bool} {ds : Str} {c : Char} {t : Str}
    (hne : ds ≠ []) (hfst : ∀ x ∈ ds, q x = false) :
    ∀ x, (ds ++ c :: t).head? = some x → q x = false := by
  intro x hx
  cases ds with
  | nil => exact absurd rfl hne
  | cons a as =>
    rw [List.cons_append, List.head?_cons] at hx
    rw [← Option.some.inj hx]
    exact hfst a (by simp)

lemma matchTsAt_of {ds : Str} {d1 d2 : Char} {ws : Str} {ap : Char} {post : Str}
    (hl : ds.length = 1 ∨ ds.length = 2) (hds : DigitStr ds)
    (h1 : isDigitA d1 = true) (h2 : isDigitA d2 = true)
    (hws : ws ≠ []) (hwsall : WsStr ws) (hap : ap = 'A' ∨ ap = 'P') :
    matchTsAt (ds ++ ':' :: d1 :: d2 :: (ws ++ ap :: 'M' :: post)) = some post := by
  have hapws : isWs ap = false := by rcases hap with rfl | rfl <;> decide
  have hapAP : isAP ap = true := by rcases hap with rfl | rfl <;> decide
  unfold matchTsAt
  rw [eatDigits12_of hl hds (head_cons_false (by decide)), Option.some_bind,
    eatChar_of (fun c => c == ':') (by decide), Option.some_bind,
    eatChar_of _ h1, Option.some_bind, eatChar_of _ h2, Option.some_bind,
    eatRun1_of hws hwsall (head_cons_false hapws), Option.some_bind,
    eatChar_of _ hapAP, Option.some_bind]
  exact eatChar_of (fun c => c == 'M') (by decide)

lemma matchTsAt_inv {s r : Str} (h : matchTsAt s = some r) :
    ∃ ds d1 d2 ws ap,
      s = ds ++ ':' :: d1 :: d2 :: (ws ++ ap :: 'M' :: r) ∧
      (ds.length = 1 ∨ ds.length = 2) ∧ DigitStr ds ∧
      isDigitA d1 = true ∧ isDigitA d2 = true ∧
      ws ≠ [] ∧ WsStr ws ∧ (ap = 'A' ∨ ap = 'P') := by
  unfold matchTsAt at h
  simp only [Option.bind_eq_some] at h
  obtain ⟨s1, hd, s2, hc, s3, h1, s4, h2, s5, hr, s6, hap, hm⟩ := h
  obtain ⟨ds, hseq, hl, hds, _⟩ := eatDigits12_inv hd
  obtain ⟨c1, hs1eq, hc1⟩ := eatChar_inv hc
  obtain rfl : c1 = ':' := by simpa using hc1
  obtain ⟨d1, hs2eq, hd1⟩ := eatChar_inv h1
  obtain ⟨d2, hs3eq, hd2⟩ := eatChar_inv h2
  obtain ⟨ws, hs4eq, hwsne, hwsall, _⟩ := eatRun1_inv hr
  obtain ⟨ap, hs5eq, hap2⟩ := eatChar_inv hap
  have hap3 : ap = 'A' ∨ ap = 'P' := by
    simpa [isAP] using hap2
  obtain ⟨m, hs6eq, hm2⟩ := eatChar_inv hm
  obtain rfl : m = 'M' := by simpa using hm2
  refine ⟨ds, d1, d2, ws, ap, ?_, hl, hds, hd1, hd2, hwsne, hwsall, hap3⟩
  rw [hseq, hs1eq, hs2eq, hs3eq, hs4eq, hs5eq, hs6eq]

lemma anyTail_iff {m : Str → Option Str} {T : Str} :
    anyTail m T = true ↔ ∃ pre t, T = pre ++ t ∧ (m t).isSome = true := by
  unfold anyTail
  rw [List.any_eq_true]
  constructor
  · rintro ⟨t, ht, hm⟩
    obtain ⟨pre, hpre⟩ := (List.mem_tails _ _).mp ht
    exact ⟨pre, t, hpre.symm, hm⟩
  · rintro ⟨pre, t, heq, hm⟩
    exact ⟨t, (List.mem_tails _ _).mpr ⟨pre, heq.symm⟩, hm⟩

lemma specTs_iff {T : Str} : anyTail matchTsAt T = true ↔ SpecTs T := by
  rw [anyTail_iff]
  constructor
  · rintro ⟨pre, t, heq, hm⟩
    obtain ⟨r, hr⟩ := Option.isSome_iff_exists.mp hm
    obtain ⟨ds, d1, d2, ws, ap, hteq, hl, hds, h1, h2, hws, hwsall, hap⟩ := matchTsAt_inv hr
    exact ⟨pre, ds, d1, d2, ws, ap, r, by rw [heq, hteq, List.append_assoc], hl, hds, h1,
      h2, hws, hwsall, hap⟩
  · rintro ⟨pre, ds, d1, d2, ws, ap, post, heq, hl, hds, h1, h2, hws, hwsall, hap⟩
    refine ⟨pre, ds ++ ':' :: d1 :: d2 :: (ws ++ ap :: 'M' :: post),
      by rw [heq, List.append_assoc], ?_⟩
    rw [matchTsAt_of hl hds h1 h2 hws hwsall hap]
    rfl

lemma specUrl_iff {T : Str} :
    anyTail (eatLit TeamsDocxCleaner.domainLit) T = true ↔ SpecUrl T := by
  rw [anyTail_iff]
  constructor
  · rintro ⟨pre, t, heq, hm⟩
    obtain ⟨r, hr⟩ := Option.isSome_iff_exists.mp hm
    have ht := eatLit_iff.mp hr
    exact ⟨pre, r, by rw [heq, ht, List.append_assoc]⟩
  · rintro ⟨pre, post, heq⟩
    refine ⟨pre, TeamsDocxCleaner.domainLit ++ post, by rw [heq, List.append_assoc], ?_⟩
    rw [eatLit_iff.mpr rfl]
    rfl

lemma matchBoldMarkerAt_of {name post : Str} (hne : name ≠ []) (hns : NoStarStr name) :
    TeamsDocxCleaner.matchBoldMarkerAt ('*' :: '*' :: (name ++ '*' :: '*' :: post)) =
      some post := by
  unfold TeamsDocxCleaner.matchBoldMarkerAt
  rw [show eatLit TeamsDownloadedCleaner.astLit ('*' :: '*' :: (name ++ '*' :: '*' :: post))
      = some (name ++ '*' :: '*' :: post) from eatLit_iff.mpr rfl, Option.some_bind,
    eatRun1_of hne hns (head_cons_false (by decide)), Option.some_bind]
  exact eatLit_iff.mpr rfl

lemma matchBoldMarkerAt_inv {s r : Str} (h : TeamsDocxCleaner.matchBoldMarkerAt s = some r) :
    ∃ name, s = '*' :: '*' :: (name ++ '*' :: '*' :: r) ∧ name ≠ [] ∧ NoStarStr name := by
  unfold TeamsDocxCleaner.matchBoldMarkerAt at h
  simp only [Option.bind_eq_some] at h
  obtain ⟨s1, h1, s2, h2, h3⟩ := h
  have e1 := eatLit_iff.mp h1
  obtain ⟨name, e2, hne, hns, _⟩ := eatRun1_inv h2
  have e3 := eatLit_iff.mp h3
  refine ⟨name, ?_, hne, hns⟩
  rw [e1, e2, e3]
  rfl

lemma specBoldMarker_iff {T : Str} :
    anyTail TeamsDocxCleaner.matchBoldMarkerAt T = true ↔ SpecBoldMarker T := by
  rw [anyTail_iff]
  constructor
  · rintro ⟨pre, t, heq, hm⟩
    obtain ⟨r, hr⟩ := Option.isSome_iff_exists.mp hm
    obtain ⟨name, hteq, hne, hns⟩ := matchBoldMarkerAt_inv hr
    exact ⟨pre, name, r, by rw [heq, hteq], hne, hns⟩
  · rintro ⟨pre, name, post, heq, hne, hns⟩
    refine ⟨pre, '*' :: '*' :: (name ++ '*' :: '*' :: post), heq, ?_⟩
    rw [matchBoldMarkerAt_of hne hns]
    rfl

lemma twoWsAt_iff {s : Str} : TeamsDocxCleaner.twoWsAt s = true ↔
    ∃ c1 c2 r, s = c1 :: c2 :: r ∧ isWs c1 = true ∧ isWs c2 = true := by
  cases s with
  | nil => simp [TeamsDocxCleaner.twoWsAt]
  | cons c1 t =>
    cases t with
    | nil => simp [TeamsDocxCleaner.twoWsAt]
    | cons c2 r =>
      rw [show TeamsDocxCleaner.twoWsAt (c1 :: c2 :: r) = (isWs c1 && isWs c2) from rfl,
        Bool.and_eq_true]
      constructor
      · rintro ⟨h1, h2⟩
        exact ⟨c1, c2, r, rfl, h1, h2⟩
      · rintro ⟨d1, d2, r2, heq, h1, h2⟩
        simp only [List.cons.injEq] at heq
        obtain ⟨rfl, rfl, rfl⟩ := heq
        exact ⟨h1, h2⟩

lemma lineStartWsAt_iff {t : Str} : TeamsDocxCleaner.lineStartWsAt t = true ↔
    ∃ lt c1 c2 r, t = lt :: c1 :: c2 :: r ∧ isLineTerm lt = true ∧
      isWs c1 = true ∧ isWs c2 = true := by
  cases t with
  | nil => simp [TeamsDocxCleaner.lineStartWsAt]
  | cons lt rest =>
    rw [show TeamsDocxCleaner.lineStartWsAt (lt :: rest)
        = (isLineTerm lt && TeamsDocxCleaner.twoWsAt rest) from rfl,
      Bool.and_eq_true, twoWsAt_iff]
    constructor
    · rintro ⟨h1, c1, c2, r, heq, h2, h3⟩
      exact ⟨lt, c1, c2, r, by rw [heq], h1, h2, h3⟩
    · rintro ⟨lt2, c1, c2, r, heq, h1, h2, h3⟩
      simp only [List.cons.injEq] at heq
      obtain ⟨rfl, hrest⟩ := heq
      exact ⟨h1, c1, c2, r, hrest, h2, h3⟩

lemma specMlWs_iff {T : Str} : TeamsDocxCleaner.mlWsTest T = true ↔ SpecMlWs T := by
  unfold TeamsDocxCleaner.mlWsTest SpecMlWs
  rw [Bool.or_eq_true, List.any_eq_true, twoWsAt_iff]
  constructor
  · rintro (h | ⟨t, ht, hls⟩)
    · exact Or.inl h
    · obtain ⟨pre, hpre⟩ := (List.mem_tails _ _).mp ht
      obtain ⟨lt, c1, c2, r, heq, h1, h2, h3⟩ := lineStartWsAt_iff.mp hls
      exact Or.inr ⟨pre, lt, c1, c2, r, by rw [← hpre, heq], h1, h2, h3⟩
  · rintro (h | ⟨pre, lt, c1, c2, post, heq, h1, h2, h3⟩)
    · exact Or.inl h
    · refine Or.inr ⟨lt :: c1 :: c2 :: post, (List.mem_tails _ _).mpr ⟨pre, heq.symm⟩, ?_⟩
      exact lineStartWsAt_iff.mpr ⟨lt, c1, c2, post, rfl, h1, h2, h3⟩

lemma ds_ne_nil {ds : Str} (hl : ds.length = 1 ∨ ds.length = 2) : ds ≠ [] := by
  rcases hl with h | h <;> (intro h0; rw [h0] at h; simp at h)

lemma eatTsTail_of {ws1 ds : Str} {d1 d2 : Char} {ws2 : Str} {ap : Char} {post : Str}
    (hws1 : ws1 ≠ []) (hws1all : WsStr ws1)
    (hl : ds.length = 1 ∨ ds.length = 2) (hds : DigitStr ds)
    (h1 : isDigitA d1 = true) (h2 : isDigitA d2 = true)
    (hws2 : ws2 ≠ []) (hws2all : WsStr ws2) (hap : ap = 'A' ∨ ap = 'P') :
    eatTsTail (ws1 ++ ds ++ ':' :: d1 :: d2 :: (ws2 ++ ap :: 'M' :: post)) = some post := by
  unfold eatTsTail
  rw [List.append_assoc,
    eatRun1_of hws1 hws1all
      (head_append_cons_false (ds_ne_nil hl) fun x hx => digit_not_ws (hds x hx)),
    Option.some_bind]
  exact matchTsAt_of hl hds h1 h2 hws2 hws2all hap

lemma eatTsTail_inv {s r : Str} (h : eatTsTail s = some r) :
    ∃ ws1 ds d1 d2 ws2 ap,
      s = ws1 ++ ds ++ ':' :: d1 :: d2 :: (ws2 ++ ap :: 'M' :: r) ∧
      ws1 ≠ [] ∧ WsStr ws1 ∧
      (ds.length = 1 ∨ ds.length = 2) ∧ DigitStr ds ∧
      isDigitA d1 = true ∧ isDigitA d2 = true ∧
      ws2 ≠ [] ∧ WsStr ws2 ∧ (ap = 'A' ∨ ap = 'P') := by
  unfold eatTsTail at h
  rw [Option.bind_eq_some] at h
  obtain ⟨s1, hr1, hm⟩ := h
  obtain ⟨ws1, e1, hne, hall, _⟩ := eatRun1_inv hr1
  obtain ⟨ds, d1, d2, ws2, ap, e2, hl, hds, h1, h2, hws2, hws2all, hap⟩ := matchTsAt_inv hm
  refine ⟨ws1, ds, d1, d2, ws2, ap, ?_, hne, hall, hl, hds, h1, h2, hws2, hws2all, hap⟩
  rw [e1, e2, List.append_assoc]

lemma matchBoldCapAt_of {name ws1 ds : Str} {d1 d2 : Char} {ws2 : Str} {ap : Char}
    {post : Str} (hname : name ≠ []) (hns : NoStarStr name)
    (hws1 : ws1 ≠ []) (hws1all : WsStr ws1)
    (hl : ds.length = 1 ∨ ds.length = 2) (hds : DigitStr ds)
    (h1 : isDigitA d1 = true) (h2 : isDigitA d2 = true)
    (hws2 : ws2 ≠ []) (hws2all : WsStr ws2) (hap : ap = 'A' ∨ ap = 'P') :
    TeamsDownloadedCleaner.matchBoldCapAt ('*' :: '*' :: (name ++ '*' :: '*' ::
      (ws1 ++ ds ++ ':' :: d1 :: d2 :: (ws2 ++ ap :: 'M' :: post)))) = some name := by
  unfold TeamsDownloadedCleaner.matchBoldCapAt
  rw [show eatLit TeamsDownloadedCleaner.astLit ('*' :: '*' :: (name ++ '*' :: '*' ::
      (ws1 ++ ds ++ ':' :: d1 :: d2 :: (ws2 ++ ap :: 'M' :: post))))
      = some (name ++ '*' :: '*' ::
        (ws1 ++ ds ++ ':' :: d1 :: d2 :: (ws2 ++ ap :: 'M' :: post)))
      from eatLit_iff.mpr rfl, Option.some_bind,
    span_take hns (head_cons_false (by decide)),
    span_drop hns (head_cons_false (by decide)), if_neg hname,
    show eatLit TeamsDownloadedCleaner.astLit ('*' :: '*' ::
      (ws1 ++ ds ++ ':' :: d1 :: d2 :: (ws2 ++ ap :: 'M' :: post)))
      = some (ws1 ++ ds ++ ':' :: d1 :: d2 :: (ws2 ++ ap :: 'M' :: post))
      from eatLit_iff.mpr rfl, Option.some_bind,
    eatTsTail_of hws1 hws1all hl hds h1 h2 hws2 hws2all hap]
  rfl

lemma matchBoldCapAt_inv {s name : Str}
    (h : TeamsDownloadedCleaner.matchBoldCapAt s = some name) :
    ∃ ws1 ds d1 d2 ws2 ap post,
      s = '*' :: '*' :: (name ++ '*' :: '*' ::
        (ws1 ++ ds ++ ':' :: d1 :: d2 :: (ws2 ++ ap :: 'M' :: post))) ∧
      name ≠ [] ∧ NoStarStr name ∧ ws1 ≠ [] ∧ WsStr ws1 ∧
      (ds.length = 1 ∨ ds.length = 2) ∧ DigitStr ds ∧
      isDigitA d1 = true ∧ isDigitA d2 = true ∧
      ws2 ≠ [] ∧ WsStr ws2 ∧ (ap = 'A' ∨ ap = 'P') := by
  unfold TeamsDownloadedCleaner.matchBoldCapAt at h
  rw [Option.bind_eq_some] at h
  obtain ⟨s1, h1, h2⟩ := h
  have e1 := eatLit_iff.mp h1
  split at h2
  · simp at h2
  · rename_i hnne
    rw [Option.bind_eq_some] at h2
    obtain ⟨s3, h3, h4⟩ := h2
    have e3 := eatLit_iff.mp h3
    rw [Option.map_eq_some'] at h4
    obtain ⟨r, hts, hnameq⟩ := h4
    obtain ⟨ws1, ds, d1, d2, ws2, ap, e4, props⟩ := eatTsTail_inv hts
    obtain ⟨hws1, hws1all, hl, hds, hd1, hd2, hws2, hws2all, hap⟩ := props
    subst hnameq
    refine ⟨ws1, ds, d1, d2, ws2, ap, r, ?_, hnne, ?_, hws1,
      hws1all, hl, hds, hd1, hd2, hws2, hws2all, hap⟩
    · rw [e1]
      conv_lhs => rw [show s1 = s1.takeWhile notStar ++ s1.dropWhile notStar
        from (List.takeWhile_append_dropWhile notStar s1).symm]
      rw [e3, e4]
      rfl
    · intro c hc
      exact List.mem_takeWhile_imp hc

/-! ## C3: the Downloaded detection predicate (corrected) -/

/-- C3 counterexample: a text whose only speaker marker uses HTML bold tags
satisfies the claim's HTML disjunct, yet `canHandle` rejects it (the HTML
form is only tried by `extractSpeaker` during parsing, never by
`canHandle`). -/
theorem C3_counterexample :
    ¬ (TeamsDownloadedCleaner.canHandle exHtmlOnly = true ↔
        (SpecBoldTs exHtmlOnly ∨ SpecBoldTsHtml exHtmlOnly)) := by
  intro hiff
  have hrhs : SpecBoldTs exHtmlOnly ∨ SpecBoldTsHtml exHtmlOnly := by
    refine Or.inr ⟨[], ('N' :: 'a' :: 'm' :: 'e' :: []), [' '], ('1' :: '0' :: []),
      '3', '0', [' '], 'A', [], ?_, ?_, ?_, ?_, ?_, ?_, ?_, ?_, ?_, ?_, ?_, ?_⟩ <;> decide
  have := hiff.mpr hrhs
  exact absurd this (by decide)

/-- C3 amended: `canHandle` accepts exactly the texts containing the
asterisk-bold speaker-plus-timestamp pattern; HTML bold tags are not
considered by detection (only by parsing). -/
theorem C3_downloaded_canHandle_iff (T : Str) :
    TeamsDownloadedCleaner.canHandle T = true ↔ SpecBoldTs T := by
  unfold TeamsDownloadedCleaner.canHandle
  rw [anyTail_iff]
  constructor
  · rintro ⟨pre, t, heq, hm⟩
    obtain ⟨name, hr⟩ := Option.isSome_iff_exists.mp hm
    obtain ⟨ws1, ds, d1, d2, ws2, ap, post, hteq, props⟩ := matchBoldCapAt_inv hr
    obtain ⟨hname, hns, hws1, hws1all, hl, hds, h1, h2, hws2, hws2all, hap⟩ := props
    exact ⟨pre, name, ws1, ds, d1, d2, ws2, ap, post, by rw [heq, hteq], hname, hns,
      hws1, hws1all, hl, hds, h1, h2, hws2, hws2all, hap⟩
  · rintro ⟨pre, name, ws1, ds, d1, d2, ws2, ap, post, heq, hname, hns, hws1, hws1all,
      hl, hds, h1, h2, hws2, hws2all, hap⟩
    refine ⟨pre, '*' :: '*' :: (name ++ '*' :: '*' ::
      (ws1 ++ ds ++ ':' :: d1 :: d2 :: (ws2 ++ ap :: 'M' :: post))), heq, ?_⟩
    rw [matchBoldCapAt_of hname hns hws1 hws1all hl hds h1 h2 hws2 hws2all hap]
    rfl

/-! ## C7: the Docx detection predicate (corrected) -/

/-- C7 counterexample: on a text with a timestamp and two consecutive blank
lines, no line begins with whitespace at all, yet the multiline `^\s{2,}`
test matches the newline run itself, so `canHandle` accepts while the
claim's line-based reading rejects. -/
theorem C7_counterexample :
    ¬ (TeamsDocxCleaner.canHandle exDocxEdge = true ↔
        (anyTail matchTsAt exDocxEdge = true ∧
         ¬ anyTail (eatLit TeamsDocxCleaner.domainLit) exDocxEdge = true ∧
         ¬ anyTail TeamsDocxCleaner.matchBoldMarkerAt exDocxEdge = true ∧
         (splitNL exDocxEdge).any TeamsDocxCleaner.twoWsAt = true)) := by
  decide

/-- C7 amended: `canHandle` is the conjunction of the timestamp pattern, the
absence of the Teams domain, the absence of asterisk-bold markup, and the
multiline two-whitespace test, where the latter matches at the text start or
after any line terminator and its two whitespace characters may themselves
be newlines (not necessarily a line with two leading whitespace
characters). -/
theorem C7_docx_canHandle_iff (T : Str) :
    TeamsDocxCleaner.canHandle T = true ↔
      (SpecTs T ∧ ¬ SpecUrl T ∧ ¬ SpecBoldMarker T ∧ SpecMlWs T) := by
  unfold TeamsDocxCleaner.canHandle
  simp only [Bool.and_eq_true, Bool.not_eq_true']
  rw [specTs_iff, specMlWs_iff]
  constructor
  · rintro ⟨⟨⟨h1, h2⟩, h3⟩, h4⟩
    refine ⟨h1, fun hu => ?_, fun hb => ?_, h4⟩
    · have hx := specUrl_iff.mpr hu
      rw [h2] at hx
      exact Bool.false_ne_true hx
    · have hx := specBoldMarker_iff.mpr hb
      rw [h3] at hx
      exact Bool.false_ne_true hx
  · rintro ⟨h1, h2, h3, h4⟩
    refine ⟨⟨⟨h1, ?_⟩, ?_⟩, h4⟩
    · cases hx : anyTail (eatLit TeamsDocxCleaner.domainLit) T with
      | false => rfl
      | true => exact absurd (specUrl_iff.mp hx) h2
    · cases hx : anyTail TeamsDocxCleaner.matchBoldMarkerAt T with
      | false => rfl
      | true => exact absurd (specBoldMarker_iff.mp hx) h3

end Transcript
